import Mathlib

/-!
Verification of the Wordle solver core (solver.py).

Words and feedback codes are embedded as lists of characters; the feedback
tags are the literal characters used by the program: 'G' (green), 'Y'
(yellow) and '.' (grey).  Python dictionaries become insertion-ordered
association lists, Python sets become lists used only through membership,
and floating-point arithmetic in `entropy_score` becomes real arithmetic.
-/

/-- A Wordle word: a list of characters (length 5 in actual play). -/
abbrev Word := List Char

/-- Python `answer_chars[answer_chars.index(guess[i])] = None`: blank out the
first occurrence of the letter `c` in the working copy of the answer letters. -/
def consumeFirst (c : Char) : List (Option Char) → List (Option Char)
  | [] => []
  | x :: xs => if x = some c then none :: xs else x :: consumeFirst c xs

/-- First pass of `get_feedback`: mark greens ('G'), leaving '.' elsewhere. -/
def greenFeedback (guess answer : Word) : List Char :=
  List.zipWith (fun g a => if g = a then 'G' else '.') guess answer

/-- Working copy of the answer's letters after the first pass: a letter
matched green is consumed (`none`), the rest remain (`some`). -/
def greenRemainder (guess answer : Word) : List (Option Char) :=
  List.zipWith (fun g a => if g = a then (none : Option Char) else some a) guess answer

/-- Second pass of `get_feedback`: positions still tagged '.' whose guess
letter survives in the working copy become 'Y' and consume one occurrence. -/
def yellowPass : List Char → List Char → List (Option Char) → List Char
  | f :: fs, g :: gs, chars =>
      if f = '.' ∧ some g ∈ chars then
        'Y' :: yellowPass fs gs (consumeFirst g chars)
      else
        f :: yellowPass fs gs chars
  | fs, _, _ => fs

/-- Python `get_feedback(guess, answer)` from solver.py: two-pass Wordle
feedback ('G' green, 'Y' yellow, '.' absent). -/
def get_feedback (guess answer : Word) : List Char :=
  yellowPass (greenFeedback guess answer) guess (greenRemainder guess answer)

/-- Python `filter_words(candidates, guess, feedback)`: keep the candidates
whose induced feedback equals the observed one. -/
def filter_words (candidates : List Word) (guess : Word) (feedback : List Char) :
    List Word :=
  candidates.filter (fun w => get_feedback guess w == feedback)

/-- Python `enforce_hard_mode(guess, known_greens, known_yellows)`.  The dicts
are association lists; Python `guess[i]` is `List.getD` (every position the
program stores comes from `enumerate` over a feedback of the guess's length,
hence is in range). -/
def enforce_hard_mode (guess : Word) (known_greens : List (Nat × Char))
    (known_yellows : List (Char × List Nat)) : Bool :=
  (known_greens.all fun p => guess.getD p.1 ' ' == p.2) &&
  (known_yellows.all fun p =>
    guess.contains p.1 && !(p.2.any fun pos => guess.getD pos ' ' == p.1))

/-! ## C2: filter_words -/

/-- C2: `filter_words(candidates, guess, feedback)` returns exactly the
candidates `w` with `get_feedback(guess, w) == feedback`, as an
order-preserving sublist of the input, and never prunes an answer by its own
induced feedback. -/
theorem filter_words_spec (candidates : List Word) (guess : Word)
    (feedback : List Char) :
    (∀ w, w ∈ filter_words candidates guess feedback ↔
        w ∈ candidates ∧ get_feedback guess w = feedback) ∧
    (filter_words candidates guess feedback).Sublist candidates ∧
    ∀ a ∈ candidates, a ∈ filter_words candidates guess (get_feedback guess a) := by
  refine ⟨fun w => ?_, List.filter_sublist _, fun a ha => ?_⟩
  · simp [filter_words, List.mem_filter]
  · simp [filter_words, List.mem_filter, ha]

/-- Witness for C2 at concrete input: the answer survives its own feedback. -/
theorem filter_words_spec_witness :
    ['a'] ∈ filter_words [['a']] ['b'] (get_feedback ['b'] ['a']) :=
  (filter_words_spec [['a']] ['b'] (get_feedback ['b'] ['a'])).2.2 ['a'] (by decide)

/-! ## C4: enforce_hard_mode -/

/-- C4: `enforce_hard_mode` accepts a guess exactly when every confirmed
position carries its confirmed letter, and every discovered letter occurs in
the guess while avoiding all of its forbidden positions. -/
theorem enforce_hard_mode_spec (guess : Word) (greens : List (Nat × Char))
    (yellows : List (Char × List Nat)) :
    enforce_hard_mode guess greens yellows = true ↔
      (∀ p ∈ greens, guess.getD p.1 ' ' = p.2) ∧
      ∀ p ∈ yellows, p.1 ∈ guess ∧ ∀ i ∈ p.2, guess.getD i ' ' ≠ p.1 := by
  simp [enforce_hard_mode, List.all_eq_true, List.any_eq_true]

/-- Witness for C4 at a concrete hard-mode situation. -/
theorem enforce_hard_mode_spec_witness :
    enforce_hard_mode ['c', 'r', 'a', 't', 'e'] [(0, 'c')] [('r', [3])] = true :=
  (enforce_hard_mode_spec ['c', 'r', 'a', 't', 'e'] [(0, 'c')] [('r', [3])]).mpr
    (by decide)

/-! ## Counting feedback tags per guess letter -/

/-- Number of positions whose feedback tag is not '.' (i.e. 'G' or 'Y') and
whose guess letter is `c`. -/
def tagsC : List Char → List Char → Char → Nat
  | f :: fs, g :: gs, c => (if g = c then if f = '.' then 0 else 1 else 0) + tagsC fs gs c
  | _, _, _ => 0

/-- Number of positions whose feedback tag is '.' and whose guess letter is `c`. -/
def dotsC : List Char → List Char → Char → Nat
  | f :: fs, g :: gs, c => (if g = c then if f = '.' then 1 else 0 else 0) + dotsC fs gs c
  | _, _, _ => 0

lemma tagsC_cons (f : Char) (fs : List Char) (g : Char) (gs : List Char) (c : Char) :
    tagsC (f :: fs) (g :: gs) c
      = (if g = c then if f = '.' then 0 else 1 else 0) + tagsC fs gs c := rfl

lemma dotsC_cons (f : Char) (fs : List Char) (g : Char) (gs : List Char) (c : Char) :
    dotsC (f :: fs) (g :: gs) c
      = (if g = c then if f = '.' then 1 else 0 else 0) + dotsC fs gs c := rfl

lemma greenFeedback_cons (g a : Char) (gs as : List Char) :
    greenFeedback (g :: gs) (a :: as)
      = (if g = a then 'G' else '.') :: greenFeedback gs as := rfl

lemma greenRemainder_cons (g a : Char) (gs as : List Char) :
    greenRemainder (g :: gs) (a :: as)
      = (if g = a then (none : Option Char) else some a) :: greenRemainder gs as := rfl

/-- Consuming an occurrence of `c` decreases the supply of `c` by one. -/
lemma consumeFirst_count_self (c : Char) :
    ∀ chars : List (Option Char), some c ∈ chars →
      (consumeFirst c chars).count (some c) + 1 = chars.count (some c) := by
  intro chars h
  induction chars with
  | nil => cases h
  | cons x xs ih =>
    by_cases hx : x = some c
    · subst hx
      simp [consumeFirst, List.count_cons]
    · have hmem : some c ∈ xs := by
        rcases List.mem_cons.mp h with h' | h'
        · exact absurd h'.symm hx
        · exact h'
      rw [consumeFirst, if_neg hx, List.count_cons, List.count_cons]
      have := ih hmem
      omega

/-- Consuming an occurrence of a letter other than `c` leaves the supply of
`c` unchanged. -/
lemma consumeFirst_count_other (g c : Char) (hne : ¬g = c) :
    ∀ chars : List (Option Char),
      (consumeFirst g chars).count (some c) = chars.count (some c) := by
  intro chars
  induction chars with
  | nil => rfl
  | cons x xs ih =>
    by_cases hx : x = some g
    · subst hx
      rw [consumeFirst, if_pos rfl]
      simp [List.count_cons, hne]
    · rw [consumeFirst, if_neg hx, List.count_cons, List.count_cons, ih]

/-- The second pass awards, for each letter `c`, exactly
`min (number of '.'-tagged c-positions) (remaining supply of c)` new tags. -/
lemma yellowPass_tags (c : Char) :
    ∀ (fs gs : List Char) (chars : List (Option Char)),
      tagsC (yellowPass fs gs chars) gs c
        = tagsC fs gs c + min (dotsC fs gs c) (chars.count (some c)) := by
  intro fs
  induction fs with
  | nil =>
    intro gs chars
    cases gs <;> simp [yellowPass, tagsC, dotsC]
  | cons f fs ih =>
    intro gs chars
    cases gs with
    | nil => simp [yellowPass, tagsC, dotsC]
    | cons g gs =>
      by_cases hc : f = '.' ∧ some g ∈ chars
      · rw [show yellowPass (f :: fs) (g :: gs) chars
              = 'Y' :: yellowPass fs gs (consumeFirst g chars) by
            simp only [yellowPass]
            rw [if_pos hc]]
        obtain ⟨hf, hmem⟩ := hc
        subst hf
        rw [tagsC_cons, tagsC_cons, dotsC_cons, ih]
        by_cases hgc : g = c
        · subst hgc
          have h1 := consumeFirst_count_self g chars hmem
          simp only []
          simp [show ¬('Y' : Char) = '.' by decide]
          omega
        · rw [consumeFirst_count_other g c hgc chars]
          simp [hgc]
      · rw [show yellowPass (f :: fs) (g :: gs) chars
              = f :: yellowPass fs gs chars by
            simp only [yellowPass]
            rw [if_neg hc]]
        rw [tagsC_cons, tagsC_cons, dotsC_cons, ih]
        by_cases hgc : g = c
        · subst hgc
          by_cases hf : f = '.'
          · have hmem : ¬some g ∈ chars := fun hm => hc ⟨hf, hm⟩
            have hz : chars.count (some g) = 0 := List.count_eq_zero.mpr hmem
            simp [hf, hz]
          · simp [hf]
            omega
        · simp [hgc]

/-- First-pass decomposition: green tags for `c` plus the surviving supply of
`c` in the working copy add up to the answer's count of `c`. -/
lemma green_tags (c : Char) :
    ∀ gs as' : List Char, gs.length = as'.length →
      tagsC (greenFeedback gs as') gs c + (greenRemainder gs as').count (some c)
        = List.count c as' := by
  intro gs
  induction gs with
  | nil =>
    intro as' h
    cases as' with
    | nil => simp [greenFeedback, greenRemainder, tagsC]
    | cons a as => simp at h
  | cons g gs ih =>
    intro as' h
    cases as' with
    | nil => simp at h
    | cons a as =>
      have hlen : gs.length = as.length := by simpa using h
      have hrec := ih as hlen
      rw [greenFeedback_cons, greenRemainder_cons, tagsC_cons, List.count_cons]
      by_cases hga : g = a
      · subst hga
        rw [if_pos rfl, if_pos rfl, List.count_cons]
        by_cases hgc : g = c
        · subst hgc
          simp [show ¬('G' : Char) = '.' by decide]
          omega
        · simp [hgc]
          omega
      · rw [if_neg hga, if_neg hga, List.count_cons]
        by_cases hac : a = c
        · subst hac
          simp [hga]
          omega
        · by_cases hgc : g = c
          · subst hgc
            simp [hac]
            omega
          · simp [hgc, hac]
            omega

/-- First-pass decomposition on the guess side: green tags for `c` plus
'.'-tagged `c` positions add up to the guess's count of `c`. -/
lemma green_dots (c : Char) :
    ∀ gs as' : List Char, gs.length = as'.length →
      tagsC (greenFeedback gs as') gs c + dotsC (greenFeedback gs as') gs c
        = List.count c gs := by
  intro gs
  induction gs with
  | nil =>
    intro as' h
    cases as' with
    | nil => simp [greenFeedback, tagsC, dotsC]
    | cons a as => simp at h
  | cons g gs ih =>
    intro as' h
    cases as' with
    | nil => simp at h
    | cons a as =>
      have hlen : gs.length = as.length := by simpa using h
      have hrec := ih as hlen
      rw [greenFeedback_cons, tagsC_cons, dotsC_cons, List.count_cons]
      by_cases hgc : g = c
      · subst hgc
        by_cases hga : g = a
        · rw [if_pos hga]
          simp [show ¬('G' : Char) = '.' by decide]
          omega
        · rw [if_neg hga]
          simp
          omega
      · by_cases hga : g = a
        · rw [if_pos hga]
          simp [hgc]
          omega
        · rw [if_neg hga]
          simp [hgc]
          omega

/-- Every position of a feedback of the guess's length is counted either as a
tag ('G'/'Y') or as a '.' for each guess letter. -/
lemma tags_dots_sum :
    ∀ fs gs : List Char, ∀ c : Char, fs.length = gs.length →
      tagsC fs gs c + dotsC fs gs c = List.count c gs := by
  intro fs
  induction fs with
  | nil =>
    intro gs c h
    cases gs with
    | nil => simp [tagsC, dotsC]
    | cons g gs => simp at h
  | cons f fs ih =>
    intro gs c h
    cases gs with
    | nil => simp at h
    | cons g gs =>
      have hlen : fs.length = gs.length := by simpa using h
      have hrec := ih gs c hlen
      rw [tagsC_cons, dotsC_cons, List.count_cons]
      by_cases hgc : g = c
      · subst hgc
        by_cases hf : f = '.'
        · simp [hf]
          omega
        · simp [hf]
          omega
      · simp [hgc]
        omega

/-- The second pass preserves the length of the feedback list. -/
lemma yellowPass_length :
    ∀ (fs gs : List Char) (chars : List (Option Char)),
      (yellowPass fs gs chars).length = fs.length := by
  intro fs
  induction fs with
  | nil => intro gs chars; cases gs <;> simp [yellowPass]
  | cons f fs ih =>
    intro gs chars
    cases gs with
    | nil => simp [yellowPass]
    | cons g gs =>
      by_cases hc : f = '.' ∧ some g ∈ chars
      · rw [show yellowPass (f :: fs) (g :: gs) chars
              = 'Y' :: yellowPass fs gs (consumeFirst g chars) by
            simp only [yellowPass]
            rw [if_pos hc]]
        simp [ih]
      · rw [show yellowPass (f :: fs) (g :: gs) chars
              = f :: yellowPass fs gs chars by
            simp only [yellowPass]
            rw [if_neg hc]]
        simp [ih]

/-- For same-length words the feedback has the guess's length. -/
lemma get_feedback_length (gs as' : List Char) (h : gs.length = as'.length) :
    (get_feedback gs as').length = gs.length := by
  rw [get_feedback, yellowPass_length, greenFeedback, List.length_zipWith, h,
    Nat.min_self]

/-- Core duplicate-letter law of the two-pass classifier: the number of
Correct-or-Present tags a letter receives is the minimum of its counts in the
guess and in the answer. -/
lemma tagsC_get_feedback_min (gs as' : List Char) (h : gs.length = as'.length)
    (c : Char) :
    tagsC (get_feedback gs as') gs c = min (List.count c gs) (List.count c as') := by
  have h1 := yellowPass_tags c (greenFeedback gs as') gs (greenRemainder gs as')
  have h2 := green_tags c gs as' h
  have h3 := green_dots c gs as' h
  rw [get_feedback, h1]
  omega

/-! ## C1: duplicate-letter feedback bound -/

/-- C1: for 5-letter words the Correct-plus-Present tags awarded to a letter
never exceed the letter's count in the answer, and a letter appearing once in
the answer but (possibly repeatedly) in the guess gets exactly one
Correct-or-Present tag, all its other occurrences being tagged Absent. -/
theorem get_feedback_duplicate_bound (guess answer : Word)
    (hg : guess.length = 5) (ha : answer.length = 5) (c : Char) :
    tagsC (get_feedback guess answer) guess c ≤ List.count c answer ∧
      (List.count c answer = 1 → c ∈ guess →
        tagsC (get_feedback guess answer) guess c = 1 ∧
          dotsC (get_feedback guess answer) guess c = List.count c guess - 1) := by
  have hlen : guess.length = answer.length := by rw [hg, ha]
  have hmin := tagsC_get_feedback_min guess answer hlen c
  have hflen : (get_feedback guess answer).length = guess.length :=
    get_feedback_length guess answer hlen
  have hsum := tags_dots_sum (get_feedback guess answer) guess c hflen
  refine ⟨by omega, fun h1 hmem => ?_⟩
  have hcpos : 0 < List.count c guess := List.count_pos_iff.mpr hmem
  exact ⟨by omega, by omega⟩

/-- Witness for C1: guessing "sheep" against "asset" tags exactly one of the
two e's. -/
theorem get_feedback_duplicate_bound_witness :
    tagsC (get_feedback ['s', 'h', 'e', 'e', 'p'] ['a', 's', 's', 'e', 't'])
        ['s', 'h', 'e', 'e', 'p'] 'e' = 1 ∧
      dotsC (get_feedback ['s', 'h', 'e', 'e', 'p'] ['a', 's', 's', 'e', 't'])
        ['s', 'h', 'e', 'e', 'p'] 'e'
        = List.count 'e' ['s', 'h', 'e', 'e', 'p'] - 1 :=
  (get_feedback_duplicate_bound ['s', 'h', 'e', 'e', 'p'] ['a', 's', 's', 'e', 't']
    (by decide) (by decide) 'e').2 (by decide) (by decide)

/-! ## C3: all-green iff equal -/

/-- The all-green feedback code, Python "GGGGG". -/
def all_green : List Char := ['G', 'G', 'G', 'G', 'G']

/-- The second pass never turns a tag into or out of 'G'. -/
lemma yellowPass_count_G :
    ∀ (fs gs : List Char) (chars : List (Option Char)),
      List.count 'G' (yellowPass fs gs chars) = List.count 'G' fs := by
  intro fs
  induction fs with
  | nil => intro gs chars; cases gs <;> simp [yellowPass]
  | cons f fs ih =>
    intro gs chars
    cases gs with
    | nil => simp [yellowPass]
    | cons g gs =>
      by_cases hc : f = '.' ∧ some g ∈ chars
      · rw [show yellowPass (f :: fs) (g :: gs) chars
              = 'Y' :: yellowPass fs gs (consumeFirst g chars) by
            simp only [yellowPass]
            rw [if_pos hc]]
        rw [List.count_cons, List.count_cons, ih, hc.1]
        simp [show ¬('Y' : Char) = 'G' by decide, show ¬('.' : Char) = 'G' by decide]
      · rw [show yellowPass (f :: fs) (g :: gs) chars
              = f :: yellowPass fs gs chars by
            simp only [yellowPass]
            rw [if_neg hc]]
        rw [List.count_cons, List.count_cons, ih]

/-- A feedback without '.' tags passes through the second pass unchanged. -/
lemma yellowPass_no_dot :
    ∀ (fs gs : List Char) (chars : List (Option Char)),
      (∀ f ∈ fs, ¬f = '.') → yellowPass fs gs chars = fs := by
  intro fs
  induction fs with
  | nil => intro gs chars _; cases gs <;> simp [yellowPass]
  | cons f fs ih =>
    intro gs chars hf
    cases gs with
    | nil => simp [yellowPass]
    | cons g gs =>
      rw [show yellowPass (f :: fs) (g :: gs) chars = f :: yellowPass fs gs chars by
        simp only [yellowPass]
        rw [if_neg (fun hc => hf f (List.mem_cons_self f fs) hc.1)]]
      rw [ih gs chars (fun x hx => hf x (List.mem_cons_of_mem f hx))]

/-- Guessing the answer itself makes every first-pass tag green. -/
lemma greenFeedback_self :
    ∀ gs : List Char, greenFeedback gs gs = List.replicate gs.length 'G' := by
  intro gs
  induction gs with
  | nil => rfl
  | cons g gs ih =>
    rw [greenFeedback_cons, if_pos rfl, List.length_cons, List.replicate_succ, ih]

/-- The first pass is all green exactly when the words coincide. -/
lemma greenFeedback_count_G :
    ∀ gs as' : List Char, gs.length = as'.length →
      (List.count 'G' (greenFeedback gs as') = gs.length ↔ gs = as') := by
  intro gs
  induction gs with
  | nil =>
    intro as' h
    cases as' with
    | nil => simp [greenFeedback]
    | cons a as => simp at h
  | cons g gs ih =>
    intro as' h
    cases as' with
    | nil => simp at h
    | cons a as =>
      have hlen : gs.length = as.length := by simpa using h
      rw [greenFeedback_cons, List.count_cons, List.length_cons]
      have hflen : (greenFeedback gs as).length = gs.length := by
        rw [greenFeedback, List.length_zipWith, hlen, Nat.min_self]
      have hcle : List.count 'G' (greenFeedback gs as) ≤ gs.length := by
        have := List.count_le_length 'G' (greenFeedback gs as)
        omega
      by_cases hga : g = a
      · subst hga
        rw [if_pos rfl]
        simp only [beq_self_eq_true, if_true, List.cons.injEq, true_and]
        rw [← ih as hlen]
        omega
      · rw [if_neg hga]
        constructor
        · intro hcount
          simp [show ¬('.' : Char) = 'G' by decide] at hcount
          omega
        · intro hcons
          injection hcons with h1 h2
          exact absurd h1 hga

/-- C3: the feedback is "GGGGG" exactly when the guess equals the answer. -/
theorem get_feedback_all_green_iff (guess answer : Word)
    (hg : guess.length = 5) (ha : answer.length = 5) :
    get_feedback guess answer = all_green ↔ guess = answer := by
  have hlen : guess.length = answer.length := by rw [hg, ha]
  constructor
  · intro h
    have hcount : List.count 'G' (get_feedback guess answer) = 5 := by
      rw [h]
      decide
    rw [get_feedback, yellowPass_count_G] at hcount
    exact (greenFeedback_count_G guess answer hlen).mp (by omega)
  · intro h
    subst h
    rw [get_feedback, yellowPass_no_dot, greenFeedback_self, hg]
    · decide
    · intro f hf
      rw [greenFeedback_self] at hf
      have := List.eq_of_mem_replicate hf
      subst this
      decide

/-- Witness for C3: "grain" against itself yields all-green. -/
theorem get_feedback_all_green_iff_witness :
    get_feedback ['g', 'r', 'a', 'i', 'n'] ['g', 'r', 'a', 'i', 'n'] = all_green :=
  (get_feedback_all_green_iff ['g', 'r', 'a', 'i', 'n'] ['g', 'r', 'a', 'i', 'n']
    (by decide) (by decide)).mpr rfl

/-! ## Entropy of a guess -/

/-- Python `partitions[fb] += 1` on an insertion-ordered association list
(`collections.defaultdict(int)` preserves insertion order). -/
def bump (fb : List Char) : List (List Char × Nat) → List (List Char × Nat)
  | [] => [(fb, 1)]
  | p :: rest => if p.1 = fb then (p.1, p.2 + 1) :: rest else p :: bump fb rest

/-- The partition table built by the first loop of `entropy_score`. -/
def feedback_counts (guess : Word) (candidates : List Word) :
    List (List Char × Nat) :=
  candidates.foldl (fun acc ans => bump (get_feedback guess ans) acc) []

/-- Python `entropy_score(guess, candidates)`, with real arithmetic in place
of floating point: `entropy -= p * log2(p)` over the partition counts, with
`p = count / total`. -/
noncomputable def entropy_score (guess : Word) (candidates : List Word) : ℝ :=
  (feedback_counts guess candidates).foldl
    (fun e p => e - ((p.2 : ℝ) / (candidates.length : ℝ)) *
      Real.logb 2 ((p.2 : ℝ) / (candidates.length : ℝ))) 0

/-- Total count stored for key `k` in an association list. -/
def countOf (l : List (List Char × Nat)) (k : List Char) : Nat :=
  (l.map (fun p => if p.1 = k then p.2 else 0)).sum

lemma bump_nil (f : List Char) : bump f [] = [(f, 1)] := rfl

lemma bump_cons (f : List Char) (p : List Char × Nat) (rest : List (List Char × Nat)) :
    bump f (p :: rest)
      = if p.1 = f then (p.1, p.2 + 1) :: rest else p :: bump f rest := rfl

lemma countOf_cons (p : List Char × Nat) (l : List (List Char × Nat)) (k : List Char) :
    countOf (p :: l) k = (if p.1 = k then p.2 else 0) + countOf l k := by
  simp [countOf]

/-- Bumping key `f` adds one to the stored count of `f` and nothing else. -/
lemma countOf_bump (f k : List Char) :
    ∀ l, countOf (bump f l) k = countOf l k + if k = f then 1 else 0 := by
  intro l
  induction l with
  | nil =>
    by_cases h : k = f
    · subst h
      simp [bump_nil, countOf]
    · have h2 : ¬f = k := fun hh => h hh.symm
      simp [bump_nil, countOf, h, h2]
  | cons p rest ih =>
    by_cases hp : p.1 = f
    · rw [bump_cons, if_pos hp, countOf_cons, countOf_cons]
      by_cases hk : k = f
      · subst hk
        simp [hp]
        omega
      · have hpk : ¬p.1 = k := by
          rw [hp]
          exact fun hh => hk hh.symm
        simp [hpk, hk]
    · rw [bump_cons, if_neg hp, countOf_cons, countOf_cons, ih]
      omega

/-- The keys after a bump are the old keys plus (possibly) the bumped key. -/
lemma mem_keys_bump (f k : List Char) :
    ∀ l, k ∈ (bump f l).map Prod.fst ↔ k = f ∨ k ∈ l.map Prod.fst := by
  intro l
  induction l with
  | nil => simp [bump_nil]
  | cons p rest ih =>
    by_cases hp : p.1 = f
    · rw [bump_cons, if_pos hp]
      simp [hp]
    · rw [bump_cons, if_neg hp]
      simp only [List.map_cons, List.mem_cons, ih]
      tauto

/-- Bumping preserves distinctness of the keys. -/
lemma nodup_keys_bump (f : List Char) :
    ∀ l, (l.map Prod.fst).Nodup → ((bump f l).map Prod.fst).Nodup := by
  intro l
  induction l with
  | nil =>
    intro _
    simp [bump_nil]
  | cons p rest ih =>
    intro hnd
    rw [List.map_cons, List.nodup_cons] at hnd
    by_cases hp : p.1 = f
    · rw [bump_cons, if_pos hp, List.map_cons, List.nodup_cons]
      exact ⟨hnd.1, hnd.2⟩
    · rw [bump_cons, if_neg hp, List.map_cons, List.nodup_cons]
      refine ⟨fun hm => ?_, ih hnd.2⟩
      rcases (mem_keys_bump f p.1 rest).mp hm with h | h
      · exact hp h
      · exact hnd.1 h

/-- In a table with distinct keys, `countOf` reads off the stored value. -/
lemma countOf_eq_of_mem :
    ∀ (l : List (List Char × Nat)) (p : List Char × Nat),
      (l.map Prod.fst).Nodup → p ∈ l → countOf l p.1 = p.2 := by
  intro l
  induction l with
  | nil =>
    intro p _ hp
    cases hp
  | cons q rest ih =>
    intro p hnd hp
    rw [List.map_cons, List.nodup_cons] at hnd
    rw [countOf_cons]
    rcases List.mem_cons.mp hp with h | h
    · subst h
      have hz : countOf rest p.1 = 0 := by
        have hnk : ¬p.1 ∈ rest.map Prod.fst := hnd.1
        clear ih hp hnd
        induction rest with
        | nil => rfl
        | cons r rs ihr =>
          rw [countOf_cons]
          rw [List.map_cons, List.mem_cons] at hnk
          have h1 : ¬r.1 = p.1 := fun hh => hnk (Or.inl hh.symm)
          rw [if_neg h1, ihr (fun hh => hnk (Or.inr hh))]
      rw [hz, if_pos rfl]
      omega
    · have hq : ¬q.1 = p.1 := by
        intro hh
        exact hnd.1 (hh ▸ List.mem_map_of_mem Prod.fst h)
      rw [if_neg hq, ih p hnd.2 h]
      omega

/-- Folding bumps over the candidates adds each candidate's feedback count. -/
lemma feedback_counts_aux_countOf (guess : Word) (k : List Char) :
    ∀ (cs : List Word) (acc : List (List Char × Nat)),
      countOf (cs.foldl (fun a w => bump (get_feedback guess w) a) acc) k
        = countOf acc k + (cs.map (fun w => get_feedback guess w)).count k := by
  intro cs
  induction cs with
  | nil =>
    intro acc
    simp
  | cons w ws ih =>
    intro acc
    rw [List.foldl_cons, ih, countOf_bump, List.map_cons, List.count_cons]
    by_cases hk : k = get_feedback guess w
    · simp [hk]
      omega
    · have h2 : ¬get_feedback guess w = k := fun hh => hk hh.symm
      simp [hk, h2]

lemma feedback_counts_aux_keys (guess : Word) (k : List Char) :
    ∀ (cs : List Word) (acc : List (List Char × Nat)),
      k ∈ ((cs.foldl (fun a w => bump (get_feedback guess w) a) acc).map Prod.fst)
        ↔ k ∈ acc.map Prod.fst ∨ k ∈ cs.map (fun w => get_feedback guess w) := by
  intro cs
  induction cs with
  | nil =>
    intro acc
    simp
  | cons w ws ih =>
    intro acc
    rw [List.foldl_cons, ih, mem_keys_bump, List.map_cons, List.mem_cons]
    tauto

lemma feedback_counts_aux_nodup (guess : Word) :
    ∀ (cs : List Word) (acc : List (List Char × Nat)),
      (acc.map Prod.fst).Nodup →
      (((cs.foldl (fun a w => bump (get_feedback guess w) a) acc)).map Prod.fst).Nodup := by
  intro cs
  induction cs with
  | nil =>
    intro acc h
    simpa using h
  | cons w ws ih =>
    intro acc h
    rw [List.foldl_cons]
    exact ih _ (nodup_keys_bump _ _ h)

lemma feedback_counts_countOf (guess : Word) (cs : List Word) (k : List Char) :
    countOf (feedback_counts guess cs) k
      = (cs.map (fun w => get_feedback guess w)).count k := by
  rw [feedback_counts, feedback_counts_aux_countOf]
  simp [countOf]

lemma feedback_counts_keys_nodup (guess : Word) (cs : List Word) :
    ((feedback_counts guess cs).map Prod.fst).Nodup := by
  rw [feedback_counts]
  exact feedback_counts_aux_nodup guess cs [] (by simp)

lemma feedback_counts_mem_keys (guess : Word) (cs : List Word) (k : List Char) :
    k ∈ (feedback_counts guess cs).map Prod.fst
      ↔ k ∈ cs.map (fun w => get_feedback guess w) := by
  rw [feedback_counts, feedback_counts_aux_keys]
  simp

/-- Every stored partition count is the number of candidates inducing that
feedback. -/
lemma feedback_counts_val (guess : Word) (cs : List Word) :
    ∀ p ∈ feedback_counts guess cs,
      p.2 = (cs.map (fun w => get_feedback guess w)).count p.1 := by
  intro p hp
  have h1 := countOf_eq_of_mem (feedback_counts guess cs) p
    (feedback_counts_keys_nodup guess cs) hp
  rw [← h1, feedback_counts_countOf]

/-- Every stored partition count is between 1 and the number of candidates. -/
lemma feedback_counts_bounds (guess : Word) (cs : List Word) :
    ∀ p ∈ feedback_counts guess cs, 1 ≤ p.2 ∧ p.2 ≤ cs.length := by
  intro p hp
  have hv := feedback_counts_val guess cs p hp
  have hk : p.1 ∈ cs.map (fun w => get_feedback guess w) :=
    (feedback_counts_mem_keys guess cs p.1).mp (List.mem_map_of_mem Prod.fst hp)
  constructor
  · rw [hv]
    exact List.count_pos_iff.mpr hk
  · rw [hv]
    have := List.count_le_length p.1 (cs.map (fun w => get_feedback guess w))
    simpa using this

/-- Subtracting the images of a function along a fold is subtracting their sum. -/
lemma foldl_sub_sum {α : Type} (h : α → ℝ) :
    ∀ (l : List α) (s : ℝ), l.foldl (fun e p => e - h p) s = s - (l.map h).sum := by
  intro l
  induction l with
  | nil =>
    intro s
    simp
  | cons a l ih =>
    intro s
    rw [List.foldl_cons, ih, List.map_cons, List.sum_cons]
    ring

lemma entropy_eq_neg_sum (guess : Word) (cs : List Word) :
    entropy_score guess cs
      = -(((feedback_counts guess cs).map
          (fun p => ((p.2 : ℝ) / (cs.length : ℝ)) *
            Real.logb 2 ((p.2 : ℝ) / (cs.length : ℝ)))).sum) := by
  rw [entropy_score, foldl_sub_sum]
  ring

/-- A list with no duplicates counts each of its members exactly once. -/
lemma count_eq_one_of_nodup_mem {l : List (List Char)} (hnd : l.Nodup)
    {a : List Char} (ha : a ∈ l) : l.count a = 1 := by
  induction l with
  | nil => cases ha
  | cons x xs ih =>
    rw [List.nodup_cons] at hnd
    rcases List.mem_cons.mp ha with h | h
    · subst h
      rw [List.count_cons, List.count_eq_zero.mpr hnd.1]
      simp
    · rw [List.count_cons, ih hnd.2 h]
      have hx : ¬x = a := fun hh => hnd.1 (hh ▸ h)
      simp [hx]

lemma list_sum_nonpos : ∀ l : List ℝ, (∀ x ∈ l, x ≤ 0) → l.sum ≤ 0 := by
  intro l
  induction l with
  | nil =>
    intro _
    simp
  | cons a l ih =>
    intro h
    rw [List.sum_cons]
    have h1 := h a (List.mem_cons_self a l)
    have h2 := ih (fun x hx => h x (List.mem_cons_of_mem a hx))
    linarith

/-- The entropy of a guess is never negative. -/
lemma entropy_score_nonneg (guess : Word) (cs : List Word) :
    0 ≤ entropy_score guess cs := by
  rw [entropy_eq_neg_sum, neg_nonneg]
  apply list_sum_nonpos
  intro x hx
  rcases List.mem_map.mp hx with ⟨p, hp, rfl⟩
  obtain ⟨h1, h2⟩ := feedback_counts_bounds guess cs p hp
  have hN : (1 : ℝ) ≤ (cs.length : ℝ) := by
    have h3 : 1 ≤ cs.length := le_trans h1 h2
    exact_mod_cast h3
  have hr0 : 0 ≤ ((p.2 : ℝ) / (cs.length : ℝ)) := by
    apply div_nonneg
    · exact_mod_cast Nat.zero_le p.2
    · linarith
  have hr1 : ((p.2 : ℝ) / (cs.length : ℝ)) ≤ 1 := by
    rw [div_le_one (by linarith)]
    exact_mod_cast h2
  have hlog : Real.logb 2 ((p.2 : ℝ) / (cs.length : ℝ)) ≤ 0 :=
    Real.logb_nonpos (by norm_num) hr0 hr1
  have := mul_le_mul_of_nonneg_left hlog hr0
  simpa using this

/-! ## C9: entropy_score is total, no division by zero, no log of zero -/

/-- C9: every partition count iterated over by `entropy_score` is at least 1
(and at most the number of candidates, so each ratio lies in (0,1] and no
`log2(0)` is taken), and on an empty candidate list the partition table is
empty, so the function returns 0 without performing any division. -/
theorem entropy_score_total (guess : Word) (cs : List Word) :
    (∀ p ∈ feedback_counts guess cs, 1 ≤ p.2 ∧ p.2 ≤ cs.length) ∧
    (feedback_counts guess cs ≠ [] → 1 ≤ cs.length) ∧
    feedback_counts guess ([] : List Word) = [] ∧
    entropy_score guess ([] : List Word) = 0 := by
  refine ⟨feedback_counts_bounds guess cs, fun hne => ?_, rfl, ?_⟩
  · obtain ⟨p, hp⟩ := List.exists_mem_of_ne_nil _ hne
    have := feedback_counts_bounds guess cs p hp
    omega
  · simp [entropy_score, feedback_counts]

/-- Witness for C9 at a concrete candidate list. -/
theorem entropy_score_total_witness : 1 ≤ ([['a']] : List Word).length :=
  (entropy_score_total ['a'] [['a']]).2.1 (by decide)

/-! ## C6: entropy_score computes the Shannon entropy of the partition -/

/-- C6: `entropy_score` equals the Shannon entropy
`-Σ (n/N) log2 (n/N)` of the partition of the candidates by their feedback
under the guess; a guess separating all candidates scores `log2 N` and a
guess with constant feedback scores 0. -/
theorem entropy_score_spec (guess : Word) (cs : List Word) (hne : cs ≠ []) :
    entropy_score guess cs =
      -(∑ f ∈ (cs.map (fun w => get_feedback guess w)).toFinset,
          (((cs.map (fun w => get_feedback guess w)).count f : ℝ) / (cs.length : ℝ)) *
            Real.logb 2
              (((cs.map (fun w => get_feedback guess w)).count f : ℝ) /
                (cs.length : ℝ))) ∧
    ((cs.map (fun w => get_feedback guess w)).Nodup →
        entropy_score guess cs = Real.logb 2 (cs.length : ℝ)) ∧
    ((∀ w1 ∈ cs, ∀ w2 ∈ cs, get_feedback guess w1 = get_feedback guess w2) →
        entropy_score guess cs = 0) := by
  have hN0 : (cs.length : ℝ) ≠ 0 := by
    have : 0 < cs.length := List.length_pos.mpr hne
    exact_mod_cast Nat.pos_iff_ne_zero.mp this
  have hsum : entropy_score guess cs =
      -(∑ f ∈ (cs.map (fun w => get_feedback guess w)).toFinset,
          (((cs.map (fun w => get_feedback guess w)).count f : ℝ) / (cs.length : ℝ)) *
            Real.logb 2
              (((cs.map (fun w => get_feedback guess w)).count f : ℝ) /
                (cs.length : ℝ))) := by
    rw [entropy_eq_neg_sum]
    congr 1
    have hmap : (feedback_counts guess cs).map
        (fun p => ((p.2 : ℝ) / (cs.length : ℝ)) *
          Real.logb 2 ((p.2 : ℝ) / (cs.length : ℝ)))
        = ((feedback_counts guess cs).map Prod.fst).map
          (fun k => (((cs.map (fun w => get_feedback guess w)).count k : ℝ) /
              (cs.length : ℝ)) *
            Real.logb 2
              (((cs.map (fun w => get_feedback guess w)).count k : ℝ) /
                (cs.length : ℝ))) := by
      rw [List.map_map]
      apply List.map_congr_left
      intro p hp
      have := feedback_counts_val guess cs p hp
      simp only [Function.comp]
      rw [← this]
    rw [hmap, ← List.sum_toFinset _ (feedback_counts_keys_nodup guess cs)]
    have hTeq : ((feedback_counts guess cs).map Prod.fst).toFinset
        = (cs.map (fun w => get_feedback guess w)).toFinset := by
      ext a
      simp only [List.mem_toFinset]
      exact feedback_counts_mem_keys guess cs a
    rw [hTeq]
  refine ⟨hsum, fun hnd => ?_, fun hconst => ?_⟩
  · rw [hsum]
    have hone : ∀ f ∈ (cs.map (fun w => get_feedback guess w)).toFinset,
        (((cs.map (fun w => get_feedback guess w)).count f : ℝ) / (cs.length : ℝ)) *
            Real.logb 2
              (((cs.map (fun w => get_feedback guess w)).count f : ℝ) /
                (cs.length : ℝ))
          = (1 / (cs.length : ℝ)) * Real.logb 2 (1 / (cs.length : ℝ)) := by
      intro f hf
      have hc : (cs.map (fun w => get_feedback guess w)).count f = 1 :=
        count_eq_one_of_nodup_mem hnd (List.mem_toFinset.mp hf)
      rw [hc]
      norm_num
    rw [Finset.sum_congr rfl hone, Finset.sum_const,
      List.toFinset_card_of_nodup hnd, List.length_map, nsmul_eq_mul, one_div,
      Real.logb_inv]
    field_simp
  · obtain ⟨w0, hw0⟩ := List.exists_mem_of_ne_nil cs hne
    have hT : (cs.map (fun w => get_feedback guess w)).toFinset
        = {get_feedback guess w0} := by
      ext a
      simp only [List.mem_toFinset, Finset.mem_singleton, List.mem_map]
      constructor
      · rintro ⟨w, hw, rfl⟩
        exact hconst w hw w0 hw0
      · intro ha
        exact ⟨w0, hw0, ha.symm⟩
    have hcnt : (cs.map (fun w => get_feedback guess w)).count (get_feedback guess w0)
        = cs.length := by
      have hall : ∀ b ∈ cs.map (fun w => get_feedback guess w),
          get_feedback guess w0 = b := by
        intro b hb
        rcases List.mem_map.mp hb with ⟨w, hw, rfl⟩
        exact hconst w0 hw0 w hw
      rw [List.count_eq_length.mpr hall, List.length_map]
    rw [hsum, hT, Finset.sum_singleton, hcnt, div_self hN0, Real.logb_one]
    simp

/-- Witness for C6: a single candidate means constant feedback, entropy 0. -/
theorem entropy_score_spec_witness : entropy_score ['a'] [['b']] = 0 :=
  (entropy_score_spec ['a'] [['b']] (by decide)).2.2 (by decide)

/-! ## C5: entropy-based selection in the game loop -/

/-- One iteration of the selection loop in `play_wordle`:
`if e > best_score: best_score, next_guess = e, g`. -/
noncomputable def select_step (candidates : List Word) (acc : ℝ × Option Word)
    (g : Word) : ℝ × Option Word :=
  if acc.1 < entropy_score g candidates then (entropy_score g candidates, some g)
  else acc

/-- The whole selection loop, starting from `best_score = -1`, `next_guess =
None`. -/
noncomputable def select_fold (candidates pool : List Word) : ℝ × Option Word :=
  pool.foldl (select_step candidates) (-1, none)

/-- The guess chosen by the selection loop. -/
noncomputable def select_guess (pool candidates : List Word) : Option Word :=
  (select_fold candidates pool).2

/-- If nothing beats the current best score the accumulator never changes. -/
lemma select_foldl_stay (candidates : List Word) :
    ∀ (l : List Word) (b : ℝ) (o : Option Word),
      (∀ x ∈ l, entropy_score x candidates ≤ b) →
      l.foldl (select_step candidates) (b, o) = (b, o) := by
  intro l
  induction l with
  | nil =>
    intro b o _
    rfl
  | cons x xs ih =>
    intro b o h
    rw [List.foldl_cons,
      show select_step candidates (b, o) x = (b, o) by
        rw [select_step, if_neg (not_lt.mpr (h x (List.mem_cons_self x xs)))]]
    exact ih b o (fun y hy => h y (List.mem_cons_of_mem x hy))

/-- The selection loop returns the first guess attaining the maximal entropy
strictly above the initial best score. -/
lemma select_fold_max (candidates : List Word) :
    ∀ (l : List Word) (b : ℝ) (o : Option Word),
      (∃ x ∈ l, b < entropy_score x candidates) →
      ∃ i : Fin l.length,
        l.foldl (select_step candidates) (b, o)
          = (entropy_score (l.get i) candidates, some (l.get i)) ∧
        b < entropy_score (l.get i) candidates ∧
        (∀ j : Fin l.length,
          entropy_score (l.get j) candidates ≤ entropy_score (l.get i) candidates) ∧
        (∀ j : Fin l.length, (j : ℕ) < (i : ℕ) →
          entropy_score (l.get j) candidates < entropy_score (l.get i) candidates) := by
  intro l
  induction l with
  | nil =>
    intro b o h
    rcases h with ⟨x, hx, _⟩
    cases hx
  | cons x xs ih =>
    intro b o hex
    rw [List.foldl_cons]
    by_cases hbx : b < entropy_score x candidates
    · rw [show select_step candidates (b, o) x
            = (entropy_score x candidates, some x) by
          rw [select_step, if_pos hbx]]
      by_cases h2 : ∃ y ∈ xs, entropy_score x candidates < entropy_score y candidates
      · obtain ⟨i', hfold, hlt, hmax, hfirst⟩ :=
          ih (entropy_score x candidates) (some x) h2
        refine ⟨i'.succ, ?_, ?_, ?_, ?_⟩
        · rw [List.get_cons_succ']
          exact hfold
        · rw [List.get_cons_succ']
          exact lt_trans hbx hlt
        · intro j
          induction j using Fin.cases with
          | zero =>
            rw [List.get_cons_zero, List.get_cons_succ']
            exact le_of_lt hlt
          | succ k =>
            rw [List.get_cons_succ', List.get_cons_succ']
            exact hmax k
        · intro j
          induction j using Fin.cases with
          | zero =>
            intro _
            rw [List.get_cons_zero, List.get_cons_succ']
            exact hlt
          | succ k =>
            intro hk
            rw [List.get_cons_succ', List.get_cons_succ']
            refine hfirst k ?_
            simp only [Fin.val_succ] at hk
            omega
      · push_neg at h2
        rw [select_foldl_stay candidates xs (entropy_score x candidates) (some x) h2]
        refine ⟨⟨0, by simp⟩, rfl, hbx, ?_, ?_⟩
        · intro j
          induction j using Fin.cases with
          | zero => exact le_refl _
          | succ k =>
            rw [List.get_cons_succ']
            exact h2 (xs.get k) (List.get_mem xs k.1 k.2)
        · intro j hj
          exact absurd hj (Nat.not_lt_zero _)
    · rw [show select_step candidates (b, o) x = (b, o) by
          rw [select_step, if_neg hbx]]
      have h2 : ∃ y ∈ xs, b < entropy_score y candidates := by
        rcases hex with ⟨y, hy, hby⟩
        rcases List.mem_cons.mp hy with h | h
        · subst h
          exact absurd hby hbx
        · exact ⟨y, h, hby⟩
      obtain ⟨i', hfold, hlt, hmax, hfirst⟩ := ih b o h2
      refine ⟨i'.succ, ?_, ?_, ?_, ?_⟩
      · rw [List.get_cons_succ']
        exact hfold
      · rw [List.get_cons_succ']
        exact hlt
      · intro j
        induction j using Fin.cases with
        | zero =>
          rw [List.get_cons_zero, List.get_cons_succ']
          exact le_trans (not_lt.mp hbx) (le_of_lt hlt)
        | succ k =>
          rw [List.get_cons_succ', List.get_cons_succ']
          exact hmax k
      · intro j
        induction j using Fin.cases with
        | zero =>
          intro _
          rw [List.get_cons_zero, List.get_cons_succ']
          exact lt_of_le_of_lt (not_lt.mp hbx) hlt
        | succ k =>
          intro hk
          rw [List.get_cons_succ', List.get_cons_succ']
          refine hfirst k ?_
          simp only [Fin.val_succ] at hk
          omega

/-- C5: on a non-empty pool the selection loop picks the first guess of
maximal entropy over the current candidates (strict-improvement comparison,
ties broken by pool order), and a pool of size 1 yields its single element
regardless of the candidate set. -/
theorem select_guess_spec (pool candidates : List Word) (hne : pool ≠ []) :
    (∃ i : Fin pool.length,
        select_guess pool candidates = some (pool.get i) ∧
        (∀ j : Fin pool.length,
          entropy_score (pool.get j) candidates
            ≤ entropy_score (pool.get i) candidates) ∧
        (∀ j : Fin pool.length, (j : ℕ) < (i : ℕ) →
          entropy_score (pool.get j) candidates
            < entropy_score (pool.get i) candidates)) ∧
    ∀ g : Word, select_guess [g] candidates = some g := by
  constructor
  · obtain ⟨x, hx⟩ := List.exists_mem_of_ne_nil pool hne
    have hex : ∃ y ∈ pool, (-1 : ℝ) < entropy_score y candidates :=
      ⟨x, hx, lt_of_lt_of_le (by norm_num) (entropy_score_nonneg x candidates)⟩
    obtain ⟨i, hfold, _, hmax, hfirst⟩ := select_fold_max candidates pool (-1) none hex
    refine ⟨i, ?_, hmax, hfirst⟩
    rw [select_guess, select_fold, hfold]
  · intro g
    have h := entropy_score_nonneg g candidates
    rw [select_guess, select_fold, List.foldl_cons,
      show select_step candidates ((-1 : ℝ), (none : Option Word)) g
          = (entropy_score g candidates, some g) by
        rw [select_step, if_pos (by norm_num; linarith)]]
    rfl

/-- Witness for C5: a singleton pool is selected whatever the candidates. -/
theorem select_guess_spec_witness :
    select_guess [['a']] ([] : List Word) = some ['a'] :=
  (select_guess_spec [['a']] [] (by decide)).2 ['a']

/-- With an empty candidate list every entropy is 0, so the selection loop
returns the first element of the pool. -/
lemma select_guess_empty_cands (p : Word) (rest : List Word) :
    select_guess (p :: rest) ([] : List Word) = some p := by
  have h0 : ∀ g : Word, entropy_score g ([] : List Word) = 0 := fun g => by
    simp [entropy_score, feedback_counts]
  rw [select_guess, select_fold, List.foldl_cons,
    show select_step [] ((-1 : ℝ), (none : Option Word)) p = (0, some p) by
      rw [select_step, h0 p]
      norm_num]
  rw [select_foldl_stay [] rest 0 (some p) (fun x _ => le_of_eq (h0 x))]

/-! ## The game loop of play_wordle -/

/-- Python `known_greens[i] = guess[i]`: dict store (overwrite or append). -/
def setGreen (i : Nat) (c : Char) : List (Nat × Char) → List (Nat × Char)
  | [] => [(i, c)]
  | p :: rest => if p.1 = i then (p.1, c) :: rest else p :: setGreen i c rest

/-- Insert a position into a forbidden-position set (a list with set
semantics). -/
def addPos (i : Nat) (ps : List Nat) : List Nat :=
  if i ∈ ps then ps else ps ++ [i]

/-- Python `known_yellows[guess[i]].add(i)` on a `defaultdict(set)`. -/
def setYellow (c : Char) (i : Nat) : List (Char × List Nat) → List (Char × List Nat)
  | [] => [(c, [i])]
  | p :: rest => if p.1 = c then (p.1, addPos i p.2) :: rest else p :: setYellow c i rest

/-- Python `for i, f in enumerate(feedback)`: update greens and yellows from
one round's feedback. -/
def update_constraints : Nat → List Char → List Char →
    List (Nat × Char) → List (Char × List Nat) →
    List (Nat × Char) × List (Char × List Nat)
  | _, [], _, gs, ys => (gs, ys)
  | _, _ :: _, [], gs, ys => (gs, ys)
  | i, f :: fs, g :: grest, gs, ys =>
      if f = 'G' then update_constraints (i + 1) fs grest (setGreen i g gs) ys
      else if f = 'Y' then update_constraints (i + 1) fs grest gs (setYellow g i ys)
      else update_constraints (i + 1) fs grest gs ys

/-- The two legal-pool comprehensions in `play_wordle`: hard-mode-legal words
of the allowed vocabulary that were not already tried. -/
def legal_pool (allowed prev : List Word) (gs : List (Nat × Char))
    (ys : List (Char × List Nat)) : List Word :=
  (allowed.filter (fun g => enforce_hard_mode g gs ys)).filter
    (fun g => !(prev.contains g))

/-- The per-game state of `play_wordle`'s loop. -/
structure GameState where
  candidates : List Word
  known_greens : List (Nat × Char)
  known_yellows : List (Char × List Nat)
  previous_guesses : List Word
  attempts : Nat
  guess : Word

/-- How one game's loop ends. -/
inductive LoopResult where
  | solved : GameState → LoopResult
  | stuckFeedback : GameState → LoopResult
  | stuckPool : GameState → LoopResult
  | exhausted : GameState → LoopResult

/-- The `while attempts < 6` loop of `play_wordle`.  `oracle r` models
`read_feedback(driver, r)`; the result also carries the trace of submitted
guesses (the `enter_guess` calls) in order.  The fuel argument only bounds
recursion depth: any fuel at least `6 - attempts` behaves like the Python
loop. -/
noncomputable def loop (allowed : List Word) (oracle : Nat → Option (List Char)) :
    Nat → GameState → LoopResult × List Word
  | 0, s => (LoopResult.exhausted s, [])
  | fuel + 1, s =>
      if s.attempts < 6 then
        match oracle s.attempts with
        | none => (LoopResult.stuckFeedback s, [s.guess])
        | some fb =>
            if fb = all_green then (LoopResult.solved s, [s.guess])
            else
              let c := update_constraints 0 fb s.guess s.known_greens s.known_yellows
              let cands := filter_words s.candidates s.guess fb
              let prev := s.previous_guesses ++ [s.guess]
              let pool := legal_pool allowed prev c.1 c.2
              if pool = [] then
                (LoopResult.stuckPool ⟨cands, c.1, c.2, prev, s.attempts, s.guess⟩,
                  [s.guess])
              else
                let next := (select_guess pool cands).getD s.guess
                let r := loop allowed oracle fuel
                  ⟨cands, c.1, c.2, prev, s.attempts + 1, next⟩
                (r.1, s.guess :: r.2)
      else (LoopResult.exhausted s, [])

lemma loop_zero (allowed : List Word) (oracle : Nat → Option (List Char))
    (s : GameState) : loop allowed oracle 0 s = (LoopResult.exhausted s, []) := rfl

lemma loop_not_lt (allowed : List Word) (oracle : Nat → Option (List Char))
    (fuel : Nat) (s : GameState) (h : ¬s.attempts < 6) :
    loop allowed oracle fuel s = (LoopResult.exhausted s, []) := by
  cases fuel with
  | zero => rfl
  | succ fuel =>
    simp only [loop]
    rw [if_neg h]

lemma loop_succ_none (allowed : List Word) (oracle : Nat → Option (List Char))
    (fuel : Nat) (s : GameState) (hlt : s.attempts < 6)
    (hor : oracle s.attempts = none) :
    loop allowed oracle (fuel + 1) s = (LoopResult.stuckFeedback s, [s.guess]) := by
  simp only [loop]
  rw [if_pos hlt, hor]

lemma loop_succ_solved (allowed : List Word) (oracle : Nat → Option (List Char))
    (fuel : Nat) (s : GameState) (fb : List Char) (hlt : s.attempts < 6)
    (hor : oracle s.attempts = some fb) (hfb : fb = all_green) :
    loop allowed oracle (fuel + 1) s = (LoopResult.solved s, [s.guess]) := by
  simp only [loop]
  rw [if_pos hlt]
  simp only [hor]
  rw [if_pos hfb]

lemma loop_succ_stuckPool (allowed : List Word) (oracle : Nat → Option (List Char))
    (fuel : Nat) (s : GameState) (fb : List Char) (hlt : s.attempts < 6)
    (hor : oracle s.attempts = some fb) (hfb : ¬fb = all_green)
    (hpool : legal_pool allowed (s.previous_guesses ++ [s.guess])
        (update_constraints 0 fb s.guess s.known_greens s.known_yellows).1
        (update_constraints 0 fb s.guess s.known_greens s.known_yellows).2 = []) :
    loop allowed oracle (fuel + 1) s
      = (LoopResult.stuckPool
          ⟨filter_words s.candidates s.guess fb,
            (update_constraints 0 fb s.guess s.known_greens s.known_yellows).1,
            (update_constraints 0 fb s.guess s.known_greens s.known_yellows).2,
            s.previous_guesses ++ [s.guess], s.attempts, s.guess⟩,
        [s.guess]) := by
  simp only [loop]
  rw [if_pos hlt]
  simp only [hor]
  rw [if_neg hfb, if_pos hpool]

lemma loop_succ_continue (allowed : List Word) (oracle : Nat → Option (List Char))
    (fuel : Nat) (s : GameState) (fb : List Char) (hlt : s.attempts < 6)
    (hor : oracle s.attempts = some fb) (hfb : ¬fb = all_green)
    (hpool : ¬legal_pool allowed (s.previous_guesses ++ [s.guess])
        (update_constraints 0 fb s.guess s.known_greens s.known_yellows).1
        (update_constraints 0 fb s.guess s.known_greens s.known_yellows).2 = []) :
    loop allowed oracle (fuel + 1) s
      = ((loop allowed oracle fuel
            ⟨filter_words s.candidates s.guess fb,
              (update_constraints 0 fb s.guess s.known_greens s.known_yellows).1,
              (update_constraints 0 fb s.guess s.known_greens s.known_yellows).2,
              s.previous_guesses ++ [s.guess], s.attempts + 1,
              (select_guess
                  (legal_pool allowed (s.previous_guesses ++ [s.guess])
                    (update_constraints 0 fb s.guess s.known_greens s.known_yellows).1
                    (update_constraints 0 fb s.guess s.known_greens s.known_yellows).2)
                  (filter_words s.candidates s.guess fb)).getD s.guess⟩).1,
        s.guess ::
          (loop allowed oracle fuel
            ⟨filter_words s.candidates s.guess fb,
              (update_constraints 0 fb s.guess s.known_greens s.known_yellows).1,
              (update_constraints 0 fb s.guess s.known_greens s.known_yellows).2,
              s.previous_guesses ++ [s.guess], s.attempts + 1,
              (select_guess
                  (legal_pool allowed (s.previous_guesses ++ [s.guess])
                    (update_constraints 0 fb s.guess s.known_greens s.known_yellows).1
                    (update_constraints 0 fb s.guess s.known_greens s.known_yellows).2)
                  (filter_words s.candidates s.guess fb)).getD s.guess⟩).2) := by
  simp only [loop]
  rw [if_pos hlt]
  simp only [hor]
  rw [if_neg hfb, if_neg hpool]

/-! ## C7: unreadable feedback terminates the round in Stuck -/

/-- C7: when the feedback oracle returns `None` for the current round, the
loop stops at once in the Stuck condition: exactly the one guess of this
round was submitted, nothing is retried, and the whole per-game state is
returned exactly as it was before the feedback was requested. -/
theorem loop_stuck_on_unreadable (allowed : List Word)
    (oracle : Nat → Option (List Char)) (fuel : Nat) (s : GameState)
    (hlt : s.attempts < 6) (hor : oracle s.attempts = none) :
    loop allowed oracle (fuel + 1) s = (LoopResult.stuckFeedback s, [s.guess]) :=
  loop_succ_none allowed oracle fuel s hlt hor

/-- Witness for C7 at a concrete game state. -/
theorem loop_stuck_on_unreadable_witness :
    loop [] (fun _ => none) 1 ⟨[], [], [], [], 0, ['g', 'r', 'a', 'i', 'n']⟩
      = (LoopResult.stuckFeedback ⟨[], [], [], [], 0, ['g', 'r', 'a', 'i', 'n']⟩,
        [['g', 'r', 'a', 'i', 'n']]) :=
  loop_stuck_on_unreadable [] (fun _ => none) 0
    ⟨[], [], [], [], 0, ['g', 'r', 'a', 'i', 'n']⟩ (by decide) rfl

/-! ## C8: the 6-round cap -/

/-- C8: the loop submits at most `6 - attempts` guesses from any state (hence
at most 6 in a full game), and once 6 rounds are completed it terminates as
Exhausted without submitting anything further. -/
theorem loop_round_cap (allowed : List Word) (oracle : Nat → Option (List Char))
    (fuel : Nat) (s : GameState) :
    (loop allowed oracle fuel s).2.length ≤ 6 - s.attempts ∧
    (6 ≤ s.attempts → loop allowed oracle fuel s = (LoopResult.exhausted s, [])) := by
  induction fuel generalizing s with
  | zero =>
    refine ⟨?_, fun _ => loop_zero allowed oracle s⟩
    rw [loop_zero]
    simp
  | succ fuel ih =>
    by_cases h6 : s.attempts < 6
    · refine ⟨?_, fun habs => absurd h6 (by omega)⟩
      cases hor : oracle s.attempts with
      | none =>
        rw [loop_succ_none allowed oracle fuel s h6 hor]
        simp only [List.length_cons, List.length_nil]
        omega
      | some fb =>
        by_cases hfb : fb = all_green
        · rw [loop_succ_solved allowed oracle fuel s fb h6 hor hfb]
          simp only [List.length_cons, List.length_nil]
          omega
        · by_cases hpool : legal_pool allowed (s.previous_guesses ++ [s.guess])
              (update_constraints 0 fb s.guess s.known_greens s.known_yellows).1
              (update_constraints 0 fb s.guess s.known_greens s.known_yellows).2 = []
          · rw [loop_succ_stuckPool allowed oracle fuel s fb h6 hor hfb hpool]
            simp only [List.length_cons, List.length_nil]
            omega
          · rw [loop_succ_continue allowed oracle fuel s fb h6 hor hfb hpool]
            have hrec : (loop allowed oracle fuel
                ⟨filter_words s.candidates s.guess fb,
                  (update_constraints 0 fb s.guess s.known_greens s.known_yellows).1,
                  (update_constraints 0 fb s.guess s.known_greens s.known_yellows).2,
                  s.previous_guesses ++ [s.guess], s.attempts + 1,
                  (select_guess
                      (legal_pool allowed (s.previous_guesses ++ [s.guess])
                        (update_constraints 0 fb s.guess
                          s.known_greens s.known_yellows).1
                        (update_constraints 0 fb s.guess
                          s.known_greens s.known_yellows).2)
                      (filter_words s.candidates s.guess fb)).getD
                    s.guess⟩).2.length ≤ 6 - (s.attempts + 1) :=
              (ih ⟨filter_words s.candidates s.guess fb,
                (update_constraints 0 fb s.guess s.known_greens s.known_yellows).1,
                (update_constraints 0 fb s.guess s.known_greens s.known_yellows).2,
                s.previous_guesses ++ [s.guess], s.attempts + 1,
                (select_guess
                    (legal_pool allowed (s.previous_guesses ++ [s.guess])
                      (update_constraints 0 fb s.guess
                        s.known_greens s.known_yellows).1
                      (update_constraints 0 fb s.guess
                        s.known_greens s.known_yellows).2)
                    (filter_words s.candidates s.guess fb)).getD s.guess⟩).1
            simp only [List.length_cons]
            omega
    · refine ⟨?_, fun _ => loop_not_lt allowed oracle (fuel + 1) s h6⟩
      rw [loop_not_lt allowed oracle (fuel + 1) s h6]
      simp

/-- Witness for C8: with the round counter already past the cap the loop
terminates immediately as Exhausted. -/
theorem loop_round_cap_witness :
    loop [] (fun _ => none) 3 ⟨[], [], [], [], 7, []⟩
      = (LoopResult.exhausted ⟨[], [], [], [], 7, []⟩, []) :=
  (loop_round_cap [] (fun _ => none) 3 ⟨[], [], [], [], 7, []⟩).2 (by decide)

/-! ## C10: an empty candidate set is not terminal -/

/-- C10: if the round's filtering empties the candidate list while legal
guesses remain, the loop does not stop: every guess scores entropy 0 over the
empty candidate set, the first legal untried guess in pool order is selected,
and the loop recurses into the next round (it ends this round only on
all-green feedback, an unreadable feedback, or an empty legal pool, and
overall at the 6-round cap). -/
theorem loop_empty_candidates_continue (allowed : List Word)
    (oracle : Nat → Option (List Char)) (fuel : Nat) (s : GameState)
    (fb : List Char) (gs : List (Nat × Char)) (ys : List (Char × List Nat))
    (pool : List Word)
    (h6 : s.attempts < 6) (hor : oracle s.attempts = some fb)
    (hfb : ¬fb = all_green)
    (hup : update_constraints 0 fb s.guess s.known_greens s.known_yellows = (gs, ys))
    (hpool : legal_pool allowed (s.previous_guesses ++ [s.guess]) gs ys = pool)
    (hpne : pool ≠ [])
    (hcand : filter_words s.candidates s.guess fb = []) :
    (∀ g : Word, entropy_score g ([] : List Word) = 0) ∧
    loop allowed oracle (fuel + 1) s
      = ((loop allowed oracle fuel
            ⟨[], gs, ys, s.previous_guesses ++ [s.guess], s.attempts + 1,
              pool.headI⟩).1,
        s.guess ::
          (loop allowed oracle fuel
            ⟨[], gs, ys, s.previous_guesses ++ [s.guess], s.attempts + 1,
              pool.headI⟩).2) := by
  refine ⟨fun g => by simp [entropy_score, feedback_counts], ?_⟩
  have hcont := loop_succ_continue allowed oracle fuel s fb h6 hor hfb
    (by rw [hup, hpool]; exact hpne)
  rw [hup] at hcont
  simp only at hcont
  rw [hpool, hcand] at hcont
  cases pool with
  | nil => exact absurd rfl hpne
  | cons p rest =>
    rw [select_guess_empty_cands p rest] at hcont
    simp only [Option.getD_some, List.headI] at hcont ⊢
    exact hcont

/-- Witness for C10: with no candidates left and one legal untried word, the
loop continues into the next round with that word as the guess. -/
theorem loop_empty_candidates_continue_witness :
    loop [['b', 'b', 'b', 'b', 'b']] (fun _ => some ['.', '.', '.', '.', '.']) 1
        ⟨[], [], [], [], 0, ['a', 'a', 'a', 'a', 'a']⟩
      = ((loop [['b', 'b', 'b', 'b', 'b']] (fun _ => some ['.', '.', '.', '.', '.']) 0
            ⟨[], [], [], [['a', 'a', 'a', 'a', 'a']], 1, ['b', 'b', 'b', 'b', 'b']⟩).1,
        ['a', 'a', 'a', 'a', 'a'] ::
          (loop [['b', 'b', 'b', 'b', 'b']] (fun _ => some ['.', '.', '.', '.', '.']) 0
            ⟨[], [], [], [['a', 'a', 'a', 'a', 'a']], 1, ['b', 'b', 'b', 'b', 'b']⟩).2) :=
  (loop_empty_candidates_continue [['b', 'b', 'b', 'b', 'b']]
    (fun _ => some ['.', '.', '.', '.', '.']) 0
    ⟨[], [], [], [], 0, ['a', 'a', 'a', 'a', 'a']⟩
    ['.', '.', '.', '.', '.'] [] [] [['b', 'b', 'b', 'b', 'b']]
    (by decide) rfl (by decide) (by decide) (by decide) (by decide) (by decide)).2
